import Mathlib

/-!
Verification of the key-hashing core of the cudf columnar dataframe engine
(`cpp/include/cudf/detail/utilities/hash_functions.cuh`).

The C++ source is shallowly embedded: 32-bit unsigned arithmetic becomes
`Nat` arithmetic reduced `% 2^32` at every operation that can overflow,
byte buffers (`std::byte const*` plus a length) become `List Nat` whose
entries are byte values, and each template specialization of a hash
functor becomes one Lean definition.  `std::byte` reads through
`std::to_integer<uint8_t>` are modelled by reducing the list entry
`% 256`, which is the identity on genuine byte data.
-/

set_option maxRecDepth 4000

/-- Hash constant `c1 = 0xcc9e2d51` shared by both `compute_bytes` variants. -/
def c1 : Nat := 0xcc9e2d51

/-- Hash constant `c2 = 0x1b873593` shared by both `compute_bytes` variants. -/
def c2 : Nat := 0x1b873593

/-- Hash constant `c3 = 0xe6546b64` shared by both `compute_bytes` variants. -/
def c3 : Nat := 0xe6546b64

/-- `rotl32(x, r)`: 32-bit rotate left, `(x << r) | (x >> (32 - r))` on
`uint32_t` (the CUDA `__funnelshift_l` the source uses is documented in the
source as exactly this expression). -/
def rotl32 (x r : Nat) : Nat :=
  ((x <<< r) % 2 ^ 32) ||| ((x % 2 ^ 32) >>> (32 - r))

/-- `fmix32(h)`: the final avalanche mix shared by both hash structs. -/
def fmix32 (h : Nat) : Nat :=
  let h := h ^^^ (h >>> 16)
  let h := (h * 0x85ebca6b) % 2 ^ 32
  let h := h ^^^ (h >>> 13)
  let h := (h * 0xc2b2ae35) % 2 ^ 32
  h ^^^ (h >>> 16)

/-- `getblock32(data, offset)`: read four bytes starting at `offset` as a
little-endian 32-bit word, `block[0] | (block[1] << 8) | (block[2] << 16)
| (block[3] << 24)`. -/
def getblock32 (bs : List Nat) (off : Nat) : Nat :=
  (bs.getD off 0 % 256) ||| ((bs.getD (off + 1) 0 % 256) <<< 8) |||
    ((bs.getD (off + 2) 0 % 256) <<< 16) ||| ((bs.getD (off + 3) 0 % 256) <<< 24)

/-- One iteration of the four-byte-chunk loop of
`MurmurHash3_32::compute_bytes`: mix block `i` into the running state. -/
def MurmurHash3_32_block_step (bs : List Nat) (h1 i : Nat) : Nat :=
  let k1 := getblock32 bs (i * 4)
  let k1 := (k1 * c1) % 2 ^ 32
  let k1 := rotl32 k1 15
  let k1 := (k1 * c2) % 2 ^ 32
  let h1 := h1 ^^^ k1
  let h1 := rotl32 h1 13
  (h1 * 5 + c3) % 2 ^ 32

/-- Tail handling of `MurmurHash3_32::compute_bytes`: the `switch (len % 4)`
with fall-through — case 3 folds byte 2, falls into case 2 which folds
byte 1, falls into case 1 which folds byte 0 and mixes the scratch word
into `h1` once. -/
def MurmurHash3_32_tail (bs : List Nat) (tail_offset rem h1 : Nat) : Nat :=
  let k1 : Nat := 0
  let k1 := if 3 ≤ rem then k1 ^^^ ((bs.getD (tail_offset + 2) 0 % 256) <<< 16) else k1
  let k1 := if 2 ≤ rem then k1 ^^^ ((bs.getD (tail_offset + 1) 0 % 256) <<< 8) else k1
  if 1 ≤ rem then
    let k1 := k1 ^^^ (bs.getD tail_offset 0 % 256)
    let k1 := (k1 * c1) % 2 ^ 32
    let k1 := rotl32 k1 15
    let k1 := (k1 * c2) % 2 ^ 32
    h1 ^^^ k1
  else h1

/-- `MurmurHash3_32::compute_bytes(data, len)`: process `len / 4` four-byte
chunks, fold the remaining tail bytes, then finalize with `h1 ^= len` and
`fmix32`.  `m_seed` is a `uint32_t`, hence the `% 2 ^ 32` on the seed. -/
def MurmurHash3_32_compute_bytes (seed : Nat) (bs : List Nat) : Nat :=
  let len := bs.length
  let nblocks := len / 4
  let h1 := (List.range nblocks).foldl (MurmurHash3_32_block_step bs) (seed % 2 ^ 32)
  let h1 := MurmurHash3_32_tail bs (nblocks * 4) (len % 4) h1
  fmix32 (h1 ^^^ (len % 2 ^ 32))

/-- One iteration of the four-byte-chunk loop of
`SparkMurmurHash3_32::compute_bytes` (textually identical to the generic
variant's chunk loop). -/
def SparkMurmurHash3_32_block_step (bs : List Nat) (h1 i : Nat) : Nat :=
  let k1 := getblock32 bs (i * 4)
  let k1 := (k1 * c1) % 2 ^ 32
  let k1 := rotl32 k1 15
  let k1 := (k1 * c2) % 2 ^ 32
  let h1 := h1 ^^^ k1
  let h1 := rotl32 h1 13
  (h1 * 5 + c3) % 2 ^ 32

/-- The two-step cast `static_cast<uint32_t>(std::to_integer<int8_t>(b))`
of the Spark tail loop: the byte is reinterpreted as a signed `int8_t` and
then sign-extended to `uint32_t` under two's complement. -/
def signExtend8_uint32 (b : Nat) : Nat :=
  if b % 256 < 128 then b % 256 else b % 256 + 0xFFFFFF00

/-- One iteration of the Spark tail loop: one byte, sign-extended, is put
through the full mixing sequence (including the `rotl(h1,13)` and
`h1*5+c3` steps that the generic variant's tail omits). -/
def SparkMurmurHash3_32_tail_step (h1 b : Nat) : Nat :=
  let k1 := signExtend8_uint32 b
  let k1 := (k1 * c1) % 2 ^ 32
  let k1 := rotl32 k1 15
  let k1 := (k1 * c2) % 2 ^ 32
  let h1 := h1 ^^^ k1
  let h1 := rotl32 h1 13
  (h1 * 5 + c3) % 2 ^ 32

/-- `SparkMurmurHash3_32::compute_bytes(data, len)`: same chunk loop as the
generic variant, but the remaining bytes are processed one at a time by the
index loop `for (i = nblocks * 4; i < len; i++)`. -/
def SparkMurmurHash3_32_compute_bytes (seed : Nat) (bs : List Nat) : Nat :=
  let len := bs.length
  let nblocks := len / 4
  let h1 := (List.range nblocks).foldl (SparkMurmurHash3_32_block_step bs) (seed % 2 ^ 32)
  let h1 := (List.range' (nblocks * 4) (len - nblocks * 4)).foldl
    (fun h i => SparkMurmurHash3_32_tail_step h (bs.getD i 0)) h1
  fmix32 (h1 ^^^ (len % 2 ^ 32))

/-- Little-endian byte representation of `n` in `w` bytes, the memory image
`reinterpret_cast<std::byte const*>(&key)` exposes on the little-endian
target for a `w`-byte integer holding `n`. -/
def bytesLE (w n : Nat) : List Nat :=
  (List.range w).map fun i => n / 256 ^ i % 256

/-- `compute<T>(key)` for a 4-byte `T` whose memory image is the 32-bit
pattern `p`: hash the 4 bytes at `&key`. -/
def MurmurHash3_32_compute4 (seed p : Nat) : Nat :=
  MurmurHash3_32_compute_bytes seed (bytesLE 4 p)

/-- `compute<T>(key)` for an 8-byte `T` whose memory image is the 64-bit
pattern `p`. -/
def MurmurHash3_32_compute8 (seed p : Nat) : Nat :=
  MurmurHash3_32_compute_bytes seed (bytesLE 8 p)

/-- Spark variant of `compute` for a 4-byte value. -/
def SparkMurmurHash3_32_compute4 (seed p : Nat) : Nat :=
  SparkMurmurHash3_32_compute_bytes seed (bytesLE 4 p)

/-- Spark variant of `compute` for an 8-byte value. -/
def SparkMurmurHash3_32_compute8 (seed p : Nat) : Nat :=
  SparkMurmurHash3_32_compute_bytes seed (bytesLE 8 p)

/-!
Floating-point keys are modelled by their IEEE-754 bit patterns: a `float`
is a 32-bit pattern (sign bit 31, exponent bits 23–30, mantissa bits
0–22), a `double` a 64-bit pattern (sign bit 63, exponent bits 52–62,
mantissa bits 0–51).  `key == T{0.0}` holds exactly for the two zero
patterns, `std::isnan(key)` exactly for all-ones exponent with nonzero
mantissa, and `std::numeric_limits<T>::quiet_NaN()` is the canonical
quiet-NaN pattern `0x7fc00000` / `0x7ff8000000000000`.
-/

/-- `key == 0.0f` at the bit-pattern level: `+0.0f` or `-0.0f`. -/
def f32_isZero (p : Nat) : Bool := p == 0 || p == 0x80000000

/-- `std::isnan` for a 32-bit pattern: exponent all ones, mantissa nonzero. -/
def f32_isNaN (p : Nat) : Bool := p / 2 ^ 23 % 2 ^ 8 == 0xFF && p % 2 ^ 23 != 0

/-- Bit pattern of `std::numeric_limits<float>::quiet_NaN()`. -/
def f32_quietNaN : Nat := 0x7FC00000

/-- `key == 0.0` at the bit-pattern level for `double`. -/
def f64_isZero (p : Nat) : Bool := p == 0 || p == 0x8000000000000000

/-- `std::isnan` for a 64-bit pattern. -/
def f64_isNaN (p : Nat) : Bool := p / 2 ^ 52 % 2 ^ 11 == 0x7FF && p % 2 ^ 52 != 0

/-- Bit pattern of `std::numeric_limits<double>::quiet_NaN()`. -/
def f64_quietNaN : Nat := 0x7FF8000000000000

/-- `MurmurHash3_32::compute_floating_point` on a `float` key: zeros are
hashed as `+0.0`, NaNs as the quiet NaN, everything else as-is. -/
def MurmurHash3_32_compute_floating_point32 (seed p : Nat) : Nat :=
  if f32_isZero p then MurmurHash3_32_compute4 seed 0
  else if f32_isNaN p then MurmurHash3_32_compute4 seed f32_quietNaN
  else MurmurHash3_32_compute4 seed p

/-- `MurmurHash3_32::compute_floating_point` on a `double` key. -/
def MurmurHash3_32_compute_floating_point64 (seed p : Nat) : Nat :=
  if f64_isZero p then MurmurHash3_32_compute8 seed 0
  else if f64_isNaN p then MurmurHash3_32_compute8 seed f64_quietNaN
  else MurmurHash3_32_compute8 seed p

/-- `SparkMurmurHash3_32::compute_floating_point` on a `float` key: only
NaNs are normalized; there is no zero branch in this variant. -/
def SparkMurmurHash3_32_compute_floating_point32 (seed p : Nat) : Nat :=
  if f32_isNaN p then SparkMurmurHash3_32_compute4 seed f32_quietNaN
  else SparkMurmurHash3_32_compute4 seed p

/-- `SparkMurmurHash3_32::compute_floating_point` on a `double` key. -/
def SparkMurmurHash3_32_compute_floating_point64 (seed p : Nat) : Nat :=
  if f64_isNaN p then SparkMurmurHash3_32_compute8 seed f64_quietNaN
  else SparkMurmurHash3_32_compute8 seed p

/-- `static_cast<uint32_t>` of a C++ integer value: reduce into
`[0, 2 ^ 32)` modulo `2 ^ 32`. -/
def toUInt32cast (v : Int) : Nat := (v % 2 ^ 32).toNat

/-- `static_cast<uint64_t>` of a C++ integer value. -/
def toUInt64cast (v : Int) : Nat := (v % 2 ^ 64).toNat

/-- `MurmurHash3_32<int32_t>::operator()` (primary template): hash the four
bytes of the key. -/
def MurmurHash3_32_int32 (seed : Nat) (v : Int) : Nat :=
  MurmurHash3_32_compute4 seed (toUInt32cast v)

/-- `MurmurHash3_32<float>::operator()`: forwards to
`compute_floating_point`. -/
def MurmurHash3_32_float (seed p : Nat) : Nat :=
  MurmurHash3_32_compute_floating_point32 seed p

/-- `SparkMurmurHash3_32<bool>::operator()`: `compute<uint32_t>(key)` — the
boolean is promoted to a 32-bit word before hashing. -/
def SparkMurmurHash3_32_bool (seed : Nat) (b : Bool) : Nat :=
  SparkMurmurHash3_32_compute4 seed (toUInt32cast (if b then 1 else 0))

/-- `SparkMurmurHash3_32<int8_t>::operator()`: `compute<uint32_t>(key)` —
the 8-bit key is promoted (sign-extended) to 32 bits before hashing. -/
def SparkMurmurHash3_32_int8 (seed : Nat) (v : Int) : Nat :=
  SparkMurmurHash3_32_compute4 seed (toUInt32cast v)

/-- `SparkMurmurHash3_32<uint8_t>::operator()`: `compute<uint32_t>(key)`. -/
def SparkMurmurHash3_32_uint8 (seed : Nat) (v : Nat) : Nat :=
  SparkMurmurHash3_32_compute4 seed (toUInt32cast v)

/-- `SparkMurmurHash3_32<int16_t>::operator()`: `compute<uint32_t>(key)`. -/
def SparkMurmurHash3_32_int16 (seed : Nat) (v : Int) : Nat :=
  SparkMurmurHash3_32_compute4 seed (toUInt32cast v)

/-- `SparkMurmurHash3_32<uint16_t>::operator()`: `compute<uint32_t>(key)`. -/
def SparkMurmurHash3_32_uint16 (seed : Nat) (v : Nat) : Nat :=
  SparkMurmurHash3_32_compute4 seed (toUInt32cast v)

/-- `SparkMurmurHash3_32<int32_t>::operator()` (primary template):
`compute(key)` at the key's native 4-byte width. -/
def SparkMurmurHash3_32_int32 (seed : Nat) (v : Int) : Nat :=
  SparkMurmurHash3_32_compute4 seed (toUInt32cast v)

/-- `SparkMurmurHash3_32<int64_t>::operator()` (primary template):
`compute(key)` at the key's native 8-byte width. -/
def SparkMurmurHash3_32_int64 (seed : Nat) (v : Int) : Nat :=
  SparkMurmurHash3_32_compute8 seed (toUInt64cast v)

/-- `SparkMurmurHash3_32<numeric::decimal32>::operator()`:
`compute<uint64_t>(key.value())` — the 32-bit backing integer is widened
to 64 bits before hashing. -/
def SparkMurmurHash3_32_decimal32 (seed : Nat) (v : Int) : Nat :=
  SparkMurmurHash3_32_compute8 seed (toUInt64cast v)

/-- `SparkMurmurHash3_32<numeric::decimal64>::operator()`:
`compute<uint64_t>(key.value())`. -/
def SparkMurmurHash3_32_decimal64 (seed : Nat) (v : Int) : Nat :=
  SparkMurmurHash3_32_compute8 seed (toUInt64cast v)

/-!
The `SparkMurmurHash3_32<numeric::decimal128>` specialization trims the
16-byte little-endian two's-complement image of the unscaled value to the
shortest span that still determines the value, reverses it to big-endian
order, and hashes only that span.
-/

/-- The trimmed big-endian byte span `SparkMurmurHash3_32<decimal128>`
hashes: scan the 16 little-endian bytes of the two's-complement value from
the most significant byte for the first byte differing from the sign fill
(`0x00` non-negative, `0xff` negative), keep at least one byte, add one
byte back when the retained top byte's bit 7 disagrees with the sign, and
reverse the retained bytes. -/
def sparkDecimal128Bytes (v : Int) : List Nat :=
  let data := bytesLE 16 ((v % 2 ^ 128).toNat)
  let is_negative : Bool := decide (v < 0)
  let zero_value : Nat := if is_negative then 0xff else 0x00
  let sig := data.reverse.dropWhile fun b => b == zero_value
  let length0 := max 1 sig.length
  let length :=
    if length0 < 16 ∧ Bool.xor is_negative (decide (data.getD (length0 - 1) 0 &&& 0x80 ≠ 0))
    then length0 + 1 else length0
  (data.take length).reverse

/-- `SparkMurmurHash3_32<numeric::decimal128>::operator()`: hash exactly
the trimmed big-endian span. -/
def SparkMurmurHash3_32_decimal128 (seed : Nat) (v : Int) : Nat :=
  SparkMurmurHash3_32_compute_bytes seed (sparkDecimal128Bytes v)

/-!
Nested keys.  Every `list_view` / `struct_view` specialization executes
`cudf_assert(false && "...")`.  `cudf_assert` lives in
`cudf/detail/utilities/assert.cuh`, which is not part of the sources here.
-/

/-- Outcome of invoking a hash functor: either a produced 32-bit hash
value or the fatal Unsupported-Key-Type fault. -/
inductive HashOutcome where
  | value (h : Nat)
  | unsupportedKeyTypeFault
deriving DecidableEq

/-- Modelled from the spec: `cudf_assert` (from `assert.cuh`, whose source
is not available here) on a false condition is the unconditionally fatal
Unsupported-Key-Type fault — "a precondition violation ... the core
performs no retry, no fallback value, and no partial result", so the call
never reaches its `return 0;` and never produces a hash value. -/
def cudf_assert_false : HashOutcome := HashOutcome.unsupportedKeyTypeFault

/-- `MurmurHash3_32<cudf::list_view>::operator()`: fails the assertion. -/
def MurmurHash3_32_list_view (_seed : Nat) : HashOutcome := cudf_assert_false

/-- `MurmurHash3_32<cudf::struct_view>::operator()`: fails the assertion. -/
def MurmurHash3_32_struct_view (_seed : Nat) : HashOutcome := cudf_assert_false

/-- `SparkMurmurHash3_32<cudf::list_view>::operator()`. -/
def SparkMurmurHash3_32_list_view (_seed : Nat) : HashOutcome := cudf_assert_false

/-- `SparkMurmurHash3_32<cudf::struct_view>::operator()`. -/
def SparkMurmurHash3_32_struct_view (_seed : Nat) : HashOutcome := cudf_assert_false

/-- `IdentityHash<Key>::operator()` for non-arithmetic `Key` (the overload
selected for `list_view` and `struct_view`): fails the assertion. -/
def IdentityHash_nonarithmetic (_seed : Nat) : HashOutcome := cudf_assert_false

/-!
`IdentityHash<Key>::operator()` for arithmetic `Key` returns
`static_cast<result_type>(key)`.  For an integral key that is the value
modulo `2 ^ 32`; for a floating-point key it is the numeric value
truncated toward zero (undefined behaviour when the truncated value is
not representable in `uint32_t`, modelled as `none`).
-/

/-- `IdentityHash` on an integral key: `static_cast<uint32_t>(key)`. -/
def IdentityHash_integral (v : Int) : Nat := toUInt32cast v

/-- `IdentityHash` on a `bool` key. -/
def IdentityHash_bool (b : Bool) : Nat := toUInt32cast (if b then 1 else 0)

/-- Magnitude of a finite 32-bit float pattern truncated toward zero: the
value is `(2^23 + mantissa) * 2^(exponent - 150)` for normal patterns
(`mantissa * 2^(-149)` for subnormal ones), and `Nat` division by the
power of two truncates exactly as the C++ float-to-integer conversion
does. -/
def f32_truncMagnitude (p : Nat) : Nat :=
  let e : Nat := p / 2 ^ 23 % 2 ^ 8
  let m : Nat := p % 2 ^ 23
  if e = 0 then m / 2 ^ 149
  else if e ≤ 150 then (2 ^ 23 + m) / 2 ^ (150 - e)
  else (2 ^ 23 + m) * 2 ^ (e - 150)

/-- `IdentityHash<float>::operator()`, i.e. `static_cast<uint32_t>(key)`
on the float with bit pattern `p`: truncate the numeric value toward
zero; `none` when the conversion is undefined behaviour (NaN, infinity,
or a truncated value not representable in `uint32_t`, including every
negative value below `-1`). -/
def IdentityHash_float32 (p : Nat) : Option Nat :=
  if p / 2 ^ 23 % 2 ^ 8 = 0xFF then none
  else
    let s : Nat := p / 2 ^ 31 % 2
    let t := f32_truncMagnitude p
    if s = 1 then (if t = 0 then some 0 else none)
    else if t < 2 ^ 32 then some t else none

/-!
Specification-side reference definitions.  These are written from the
wording of the specification (not from the source) and are used only to
compare the source embedding against the spec's description.
-/

/-- Spec wording (§4.1): read four bytes as a little-endian 32-bit word. -/
def specLittleEndianWord (b0 b1 b2 b3 : Nat) : Nat :=
  (b0 % 256) ||| ((b1 % 256) <<< 8) ||| ((b2 % 256) <<< 16) ||| ((b3 % 256) <<< 24)

/-- Spec wording (§4.1): for each block, multiply by `c1 = 0xcc9e2d51`,
rotate-left by 15, multiply by `c2 = 0x1b873593`, XOR into `h1`,
rotate-left `h1` by 13, then `h1 = h1*5 + c3`. -/
def specBlockMix (h1 b0 b1 b2 b3 : Nat) : Nat :=
  let k1 := (specLittleEndianWord b0 b1 b2 b3 * 0xcc9e2d51) % 2 ^ 32
  let k1 := rotl32 k1 15
  let k1 := (k1 * 0x1b873593) % 2 ^ 32
  let h1 := h1 ^^^ k1
  let h1 := rotl32 h1 13
  (h1 * 5 + 0xe6546b64) % 2 ^ 32

/-- Spec wording (§4.1): the 0–3 tail bytes folded into one scratch word
using zero-extension, each byte shifted into bit positions 0/8/16. -/
def specTailWord : List Nat → Nat
  | [] => 0
  | [t0] => t0 % 256
  | [t0, t1] => (t0 % 256) ^^^ ((t1 % 256) <<< 8)
  | t0 :: t1 :: t2 :: _ => (t0 % 256) ^^^ ((t1 % 256) <<< 8) ^^^ ((t2 % 256) <<< 16)

/-- Spec wording (§4.1): mix the remaining 0–3 tail bytes' scratch word
with the same `c1`/rotate-15/`c2` sequence and XOR it into `h1` once (no
tail step when no tail bytes remain). -/
def specMurmurTailMix (h1 : Nat) (tail : List Nat) : Nat :=
  match tail with
  | [] => h1
  | ts => h1 ^^^ ((rotl32 ((specTailWord ts * 0xcc9e2d51) % 2 ^ 32) 15 * 0x1b873593) % 2 ^ 32)

/-- Spec wording (§4.1): split the data into 4-byte blocks
(`nblocks = length / 4`), mix each block into `h1` in order, then fold
the remaining tail bytes.  The first argument is the number of blocks
still to process. -/
def specMurmurGo : Nat → Nat → List Nat → Nat
  | 0, h1, tail => specMurmurTailMix h1 tail
  | Nat.succ k, h1, bs =>
    match bs with
    | b0 :: b1 :: b2 :: b3 :: rest => specMurmurGo k (specBlockMix h1 b0 b1 b2 b3) rest
    | tail => specMurmurTailMix h1 tail

/-- Spec wording (§4.1): the whole reference MurmurHash3 — block loop over
`nblocks = length / 4` blocks, tail fold, then `h1 ^= length` and the
avalanche mix `h1 ^= h1>>16; h1 *= 0x85ebca6b; h1 ^= h1>>13;
h1 *= 0xc2b2ae35; h1 ^= h1>>16`. -/
def specMurmurReference (seed : Nat) (bs : List Nat) : Nat :=
  let h1 := specMurmurGo (bs.length / 4) (seed % 2 ^ 32) bs
  let h1 := h1 ^^^ (bs.length % 2 ^ 32)
  let h1 := h1 ^^^ (h1 >>> 16)
  let h1 := (h1 * 0x85ebca6b) % 2 ^ 32
  let h1 := h1 ^^^ (h1 >>> 13)
  let h1 := (h1 * 0xc2b2ae35) % 2 ^ 32
  h1 ^^^ (h1 >>> 16)

/-- Spec wording (§4.4): value of a big-endian byte span as an unsigned
integer (entries reduced to bytes). -/
def beBytesToNat (bs : List Nat) : Nat :=
  bs.foldl (fun a b => a * 256 + b % 256) 0

/-- Spec wording (§4.4): re-expand a big-endian byte span by sign
extension — the span read as a two's-complement signed integer whose sign
is the top bit of its first byte. -/
def decodeBE (bs : List Nat) : Int :=
  if 128 ≤ bs.headD 0 % 256 then (beBytesToNat bs : Int) - 2 ^ (8 * bs.length)
  else (beBytesToNat bs : Int)

/-- The `int8_t` value whose two's-complement bit pattern is the byte
`b`. -/
def int8OfByte (b : Nat) : Int := if b % 256 < 128 then b % 256 else (b % 256 : Int) - 256

/-!  Theorems.  -/

/-- C1: For every hash functor (generic, reference-engine-compatible, and
identity) and every seed, invoking the hash on a nested key (`list_view`
or `struct_view`) raises the Unsupported-Key-Type fault deterministically
on every call; the fault is unrecoverable and the call never produces a
hash value. -/
theorem nested_key_hash_always_faults (seed : Nat) :
    MurmurHash3_32_list_view seed = HashOutcome.unsupportedKeyTypeFault ∧
    MurmurHash3_32_struct_view seed = HashOutcome.unsupportedKeyTypeFault ∧
    SparkMurmurHash3_32_list_view seed = HashOutcome.unsupportedKeyTypeFault ∧
    SparkMurmurHash3_32_struct_view seed = HashOutcome.unsupportedKeyTypeFault ∧
    IdentityHash_nonarithmetic seed = HashOutcome.unsupportedKeyTypeFault ∧
    ∀ h : Nat,
      MurmurHash3_32_list_view seed ≠ HashOutcome.value h ∧
      MurmurHash3_32_struct_view seed ≠ HashOutcome.value h ∧
      SparkMurmurHash3_32_list_view seed ≠ HashOutcome.value h ∧
      SparkMurmurHash3_32_struct_view seed ≠ HashOutcome.value h ∧
      IdentityHash_nonarithmetic seed ≠ HashOutcome.value h := by
  refine ⟨rfl, rfl, rfl, rfl, rfl, fun h => ?_⟩
  refine ⟨?_, ?_, ?_, ?_, ?_⟩ <;>
    simp [MurmurHash3_32_list_view, MurmurHash3_32_struct_view,
      SparkMurmurHash3_32_list_view, SparkMurmurHash3_32_struct_view,
      IdentityHash_nonarithmetic, cudf_assert_false]

/-- C2 counterexample: the reference-engine-compatible hash does not
normalize signed zeros — at seed 0 and 32-bit width, hashing the `-0.0f`
bit pattern and the `+0.0f` bit pattern produce different values, so the
claim that both block-mixing variants hash the two zeros identically is
false. -/
theorem spark_negative_zero_hash_differs :
    SparkMurmurHash3_32_compute_floating_point32 0 0x80000000 ≠
      SparkMurmurHash3_32_compute_floating_point32 0 0 := by decide

/-- C2 amended: the generic hash normalizes both zeros to `+0.0` before
hashing, so `+0.0` and `-0.0` hash identically for every seed at both
floating-point widths; the reference-engine-compatible hash normalizes
only NaN, and hashes `-0.0` and `+0.0` differently (shown at seed 0 for
both widths). -/
theorem zero_normalization_generic_only :
    (∀ seed : Nat,
      MurmurHash3_32_compute_floating_point32 seed 0x80000000 =
        MurmurHash3_32_compute_floating_point32 seed 0) ∧
    (∀ seed : Nat,
      MurmurHash3_32_compute_floating_point64 seed 0x8000000000000000 =
        MurmurHash3_32_compute_floating_point64 seed 0) ∧
    SparkMurmurHash3_32_compute_floating_point32 0 0x80000000 ≠
      SparkMurmurHash3_32_compute_floating_point32 0 0 ∧
    SparkMurmurHash3_32_compute_floating_point64 0 0x8000000000000000 ≠
      SparkMurmurHash3_32_compute_floating_point64 0 0 := by
  refine ⟨fun seed => ?_, fun seed => ?_, by decide, by decide⟩
  · have h1 : f32_isZero 0x80000000 = true := by decide
    have h2 : f32_isZero 0 = true := by decide
    simp only [MurmurHash3_32_compute_floating_point32, h1, h2, if_true]
  · have h1 : f64_isZero 0x8000000000000000 = true := by decide
    have h2 : f64_isZero 0 = true := by decide
    simp only [MurmurHash3_32_compute_floating_point64, h1, h2, if_true]

/-- A NaN pattern is not a zero pattern (32-bit). -/
theorem f32_isNaN_not_isZero (p : Nat) (h : f32_isNaN p = true) : f32_isZero p = false := by
  simp only [f32_isNaN, Bool.and_eq_true, beq_iff_eq, bne_iff_ne, ne_eq] at h
  simp only [f32_isZero, Bool.or_eq_false_iff, beq_eq_false_iff_ne, ne_eq]
  omega

/-- A NaN pattern is not a zero pattern (64-bit). -/
theorem f64_isNaN_not_isZero (p : Nat) (h : f64_isNaN p = true) : f64_isZero p = false := by
  simp only [f64_isNaN, Bool.and_eq_true, beq_iff_eq, bne_iff_ne, ne_eq] at h
  simp only [f64_isZero, Bool.or_eq_false_iff, beq_eq_false_iff_ne, ne_eq]
  omega

/-- C7: For both block-mixing hash variants, for every seed, every
floating-point width, and every pair of bit patterns that both encode NaN
at that width, the two patterns hash to the same value: every NaN
normalizes to the canonical quiet-NaN pattern before hashing. -/
theorem nan_patterns_hash_equal (seed p q P Q : Nat)
    (hp : f32_isNaN p = true) (hq : f32_isNaN q = true)
    (hP : f64_isNaN P = true) (hQ : f64_isNaN Q = true) :
    MurmurHash3_32_compute_floating_point32 seed p =
      MurmurHash3_32_compute_floating_point32 seed q ∧
    SparkMurmurHash3_32_compute_floating_point32 seed p =
      SparkMurmurHash3_32_compute_floating_point32 seed q ∧
    MurmurHash3_32_compute_floating_point64 seed P =
      MurmurHash3_32_compute_floating_point64 seed Q ∧
    SparkMurmurHash3_32_compute_floating_point64 seed P =
      SparkMurmurHash3_32_compute_floating_point64 seed Q := by
  refine ⟨?_, ?_, ?_, ?_⟩
  · simp [MurmurHash3_32_compute_floating_point32, f32_isNaN_not_isZero p hp,
      f32_isNaN_not_isZero q hq, hp, hq]
  · simp [SparkMurmurHash3_32_compute_floating_point32, hp, hq]
  · simp [MurmurHash3_32_compute_floating_point64, f64_isNaN_not_isZero P hP,
      f64_isNaN_not_isZero Q hQ, hP, hQ]
  · simp [SparkMurmurHash3_32_compute_floating_point64, hP, hQ]

/-- Witness for C7 at seed 3: a signalling-NaN pattern and the quiet-NaN
pattern hash identically at both widths under both variants. -/
theorem nan_patterns_hash_equal_witness :
    MurmurHash3_32_compute_floating_point32 3 0x7F800001 =
      MurmurHash3_32_compute_floating_point32 3 0x7FC00000 ∧
    SparkMurmurHash3_32_compute_floating_point32 3 0x7F800001 =
      SparkMurmurHash3_32_compute_floating_point32 3 0x7FC00000 ∧
    MurmurHash3_32_compute_floating_point64 3 0x7FF0000000000001 =
      MurmurHash3_32_compute_floating_point64 3 0x7FF8000000000000 ∧
    SparkMurmurHash3_32_compute_floating_point64 3 0x7FF0000000000001 =
      SparkMurmurHash3_32_compute_floating_point64 3 0x7FF8000000000000 :=
  nan_patterns_hash_equal 3 0x7F800001 0x7FC00000 0x7FF0000000000001 0x7FF8000000000000
    (by decide) (by decide) (by decide) (by decide)

/-- C8: In the reference-engine-compatible hash, boolean, 8-bit and 16-bit
keys are promoted to a 32-bit representation before hashing (their hash is
the hash of the 4-byte image of the value — identical to the `int32_t`
specialization on the same value — and differs from hashing the native
1-byte image), and 32-bit and 64-bit decimal keys are widened to a 64-bit
backing representation (a `decimal32` and a `decimal64` with the same
unscaled value hash identically). -/
theorem spark_width_promotion :
    (∀ seed : Nat, ∀ b : Bool,
      SparkMurmurHash3_32_bool seed b =
        SparkMurmurHash3_32_int32 seed (if b then 1 else 0)) ∧
    (∀ seed : Nat, ∀ v : Int, -2 ^ 7 ≤ v → v < 2 ^ 7 →
      SparkMurmurHash3_32_int8 seed v = SparkMurmurHash3_32_int32 seed v) ∧
    (∀ seed u : Nat, u < 2 ^ 8 →
      SparkMurmurHash3_32_uint8 seed u = SparkMurmurHash3_32_int32 seed u) ∧
    (∀ seed : Nat, ∀ v : Int, -2 ^ 15 ≤ v → v < 2 ^ 15 →
      SparkMurmurHash3_32_int16 seed v = SparkMurmurHash3_32_int32 seed v) ∧
    (∀ seed u : Nat, u < 2 ^ 16 →
      SparkMurmurHash3_32_uint16 seed u = SparkMurmurHash3_32_int32 seed u) ∧
    (∀ seed : Nat, ∀ v : Int, -2 ^ 7 ≤ v → v < 2 ^ 7 →
      SparkMurmurHash3_32_int8 seed v =
        SparkMurmurHash3_32_compute_bytes seed (bytesLE 4 (toUInt32cast v))) ∧
    (∀ seed : Nat, ∀ v : Int, -2 ^ 31 ≤ v → v < 2 ^ 31 →
      SparkMurmurHash3_32_decimal32 seed v = SparkMurmurHash3_32_decimal64 seed v) ∧
    (∀ seed : Nat, ∀ v : Int, -2 ^ 63 ≤ v → v < 2 ^ 63 →
      SparkMurmurHash3_32_decimal64 seed v = SparkMurmurHash3_32_int64 seed v) ∧
    SparkMurmurHash3_32_int8 0 1 ≠ SparkMurmurHash3_32_compute_bytes 0 (bytesLE 1 1) :=
  ⟨fun _ _ => rfl, fun _ _ _ _ => rfl, fun _ _ _ => rfl, fun _ _ _ _ => rfl,
    fun _ _ _ => rfl, fun _ _ _ _ => rfl, fun _ _ _ _ => rfl, fun _ _ _ _ => rfl,
    by decide⟩

/-- Witness for C8 at concrete inputs: an `int8_t` key `-5` at seed 3
hashes like the 32-bit integer `-5`, and a `decimal32` and `decimal64`
with unscaled value `7` at seed 1 hash identically. -/
theorem spark_width_promotion_witness :
    SparkMurmurHash3_32_int8 3 (-5) = SparkMurmurHash3_32_int32 3 (-5) ∧
    SparkMurmurHash3_32_decimal32 1 7 = SparkMurmurHash3_32_decimal64 1 7 :=
  ⟨spark_width_promotion.2.1 3 (-5) (by decide) (by decide),
    spark_width_promotion.2.2.2.2.2.2.1 1 7 (by decide) (by decide)⟩

/-- C9: For every seed, keys with byte-identical canonical representations
hash identically; in particular the generic hash of the 32-bit integer
`1065353216` equals the generic hash of the float `1.0f` (bit pattern
`0x3F800000 = 1065353216`, which is neither zero nor NaN, so
canonicalization leaves it unchanged). -/
theorem byte_identical_keys_hash_equal :
    (∀ (seed : Nat) (bs1 bs2 : List Nat), bs1 = bs2 →
      MurmurHash3_32_compute_bytes seed bs1 = MurmurHash3_32_compute_bytes seed bs2) ∧
    (∀ seed : Nat,
      MurmurHash3_32_int32 seed 1065353216 = MurmurHash3_32_float seed 0x3F800000) :=
  ⟨fun _ _ _ h => by rw [h], fun _ => rfl⟩

/-- Witness for C9: equal byte spans hash equal at a concrete input, and
the integer/float pair agrees at seed 0. -/
theorem byte_identical_keys_hash_equal_witness :
    MurmurHash3_32_compute_bytes 0 [1, 2, 3] = MurmurHash3_32_compute_bytes 0 [1, 2, 3] ∧
    MurmurHash3_32_int32 0 1065353216 = MurmurHash3_32_float 0 0x3F800000 :=
  ⟨byte_identical_keys_hash_equal.1 0 [1, 2, 3] [1, 2, 3] rfl,
    byte_identical_keys_hash_equal.2 0⟩

/-- C10: For every seed and every byte span whose length is an exact
multiple of four, the generic and the reference-engine-compatible
`compute_bytes` agree: the block loops are identical and with no tail
bytes both tail treatments are vacuous. -/
theorem block_aligned_variants_agree (seed : Nat) (bs : List Nat)
    (h : bs.length % 4 = 0) :
    MurmurHash3_32_compute_bytes seed bs = SparkMurmurHash3_32_compute_bytes seed bs := by
  have hstep : MurmurHash3_32_block_step bs = SparkMurmurHash3_32_block_step bs := rfl
  have hsub : bs.length - bs.length / 4 * 4 = 0 := by omega
  simp only [MurmurHash3_32_compute_bytes, SparkMurmurHash3_32_compute_bytes, hstep, h,
    hsub, MurmurHash3_32_tail, List.range'_zero, List.foldl_nil]
  norm_num

/-- Witness for C10 at seed 7 and the 4-byte span `[1, 2, 3, 4]`. -/
theorem block_aligned_variants_agree_witness :
    MurmurHash3_32_compute_bytes 7 [1, 2, 3, 4] =
      SparkMurmurHash3_32_compute_bytes 7 [1, 2, 3, 4] :=
  block_aligned_variants_agree 7 [1, 2, 3, 4] (by decide)

/-- Folding a function over the index range `[s, s + (length - s))` while
reading list entries by index equals folding over the dropped suffix. -/
theorem foldl_range_getD_eq_foldl_drop (g : Nat → Nat → Nat) :
    ∀ (n : Nat) (bs : List Nat) (s a : Nat), bs.length - s = n →
      (List.range' s n).foldl (fun h i => g h (bs.getD i 0)) a = (bs.drop s).foldl g a := by
  intro n
  induction n with
  | zero =>
    intro bs s a hn
    have hdrop : bs.drop s = [] := List.drop_eq_nil_of_le (by omega)
    simp [hdrop]
  | succ k ih =>
    intro bs s a hn
    have hs : s < bs.length := by omega
    rw [List.range'_succ, List.foldl_cons, List.drop_eq_getElem_cons hs, List.foldl_cons,
      ← List.getD_eq_getElem bs 0 hs, ih bs (s + 1) _ (by omega)]

/-- C6: In the reference-engine-compatible `compute_bytes`, for every seed
and every byte span whose length is not a multiple of four, each remaining
tail byte is folded in individually — sign-extended from an 8-bit signed
value to a 32-bit word, put through the `c1`/rotate-15/`c2` mixing step,
and XORed into `h1` — and this per-byte treatment differs from the
generic variant's batched zero-extended scratch word (shown at `[0xFF]`,
seed 0). -/
theorem spark_tail_bytes_sign_extended_individually (seed : Nat) (bs : List Nat)
    (_hlen : bs.length % 4 ≠ 0) :
    (SparkMurmurHash3_32_compute_bytes seed bs =
      fmix32 (((bs.drop (bs.length / 4 * 4)).foldl
        (fun h1 b =>
          let k1 := if b % 256 < 128 then b % 256 else b % 256 + 0xFFFFFF00
          let k1 := (k1 * 0xcc9e2d51) % 2 ^ 32
          let k1 := rotl32 k1 15
          let k1 := (k1 * 0x1b873593) % 2 ^ 32
          let h1 := h1 ^^^ k1
          let h1 := rotl32 h1 13
          (h1 * 5 + 0xe6546b64) % 2 ^ 32)
        ((List.range (bs.length / 4)).foldl (SparkMurmurHash3_32_block_step bs)
          (seed % 2 ^ 32)))
        ^^^ (bs.length % 2 ^ 32))) ∧
    SparkMurmurHash3_32_compute_bytes 0 [0xFF] ≠ MurmurHash3_32_compute_bytes 0 [0xFF] := by
  refine ⟨?_, by decide⟩
  simp only [SparkMurmurHash3_32_compute_bytes]
  rw [foldl_range_getD_eq_foldl_drop SparkMurmurHash3_32_tail_step
    (bs.length - bs.length / 4 * 4) bs (bs.length / 4 * 4) _ rfl]
  rfl

/-- Witness for C6 at seed 0 and the one-byte span `[0xFF]`. -/
theorem spark_tail_bytes_sign_extended_individually_witness :
    SparkMurmurHash3_32_compute_bytes 0 [0xFF] ≠ MurmurHash3_32_compute_bytes 0 [0xFF] :=
  (spark_tail_bytes_sign_extended_individually 0 [0xFF] (by decide)).2

/-- Left-commutativity of `Nat` XOR, for AC normalization. -/
theorem xor_ac_left (a b d : Nat) : a ^^^ (b ^^^ d) = b ^^^ (a ^^^ d) := by
  rw [← Nat.xor_assoc, Nat.xor_comm a b, Nat.xor_assoc]

/-- Reading a 4-byte block after skipping four leading bytes. -/
theorem getblock32_cons4 (x y z w : Nat) (l : List Nat) (m : Nat) :
    getblock32 (x :: y :: z :: w :: l) (m + 4) = getblock32 l m := by
  have e1 : m + 4 + 1 = (m + 1) + 4 := by omega
  have e2 : m + 4 + 2 = (m + 2) + 4 := by omega
  have e3 : m + 4 + 3 = (m + 3) + 4 := by omega
  simp only [getblock32, e1, e2, e3, List.getD_cons_succ]

/-- The generic tail treatment ignores four leading bytes already consumed
by the block loop. -/
theorem murmur_tail_cons4 (x y z w : Nat) (l : List Nat) (m r h1 : Nat) :
    MurmurHash3_32_tail (x :: y :: z :: w :: l) (m + 4) r h1 =
      MurmurHash3_32_tail l m r h1 := by
  have e1 : m + 4 + 1 = (m + 1) + 4 := by omega
  have e2 : m + 4 + 2 = (m + 2) + 4 := by omega
  simp only [MurmurHash3_32_tail, e1, e2, List.getD_cons_succ]

/-- Shifting the block index by one skips four leading bytes. -/
theorem murmur_block_step_cons4 (x y z w : Nat) (l : List Nat) (h i : Nat) :
    MurmurHash3_32_block_step (x :: y :: z :: w :: l) h (i + 1) =
      MurmurHash3_32_block_step l h i := by
  have e : (i + 1) * 4 = i * 4 + 4 := by ring
  simp only [MurmurHash3_32_block_step, e, getblock32_cons4]

/-- The block loop plus tail treatment of the generic `compute_bytes`
computes the specification's chunked recursion. -/
theorem murmur_loop_tail_eq_specLoop :
    ∀ (n : Nat) (bs : List Nat), bs.length / 4 = n → ∀ a : Nat,
      MurmurHash3_32_tail bs (bs.length / 4 * 4) (bs.length % 4)
        ((List.range (bs.length / 4)).foldl (MurmurHash3_32_block_step bs) a) =
      specMurmurGo n a bs := by
  intro n
  induction n with
  | zero =>
    intro bs hn a
    simp only [hn, Nat.zero_mul, List.range_zero, List.foldl_nil]
    rcases bs with _ | ⟨x, _ | ⟨y, _ | ⟨z, _ | ⟨w, rest⟩⟩⟩⟩
    · simp [MurmurHash3_32_tail, specMurmurGo, specMurmurTailMix]
    · simp [MurmurHash3_32_tail, specMurmurGo, specMurmurTailMix, specTailWord, c1, c2]
    · simp [MurmurHash3_32_tail, specMurmurGo, specMurmurTailMix, specTailWord, c1, c2,
        Nat.xor_comm]
    · simp [MurmurHash3_32_tail, specMurmurGo, specMurmurTailMix, specTailWord, c1, c2,
        Nat.xor_comm, Nat.xor_assoc, xor_ac_left]
    · exfalso; simp [List.length_cons] at hn; omega
  | succ k ih =>
    intro bs hn a
    rcases bs with _ | ⟨x, _ | ⟨y, _ | ⟨z, _ | ⟨w, rest⟩⟩⟩⟩ <;>
      simp only [List.length_cons, List.length_nil] at hn
    · omega
    · omega
    · omega
    · omega
    · have hdiv : rest.length / 4 = k := by omega
      have hmod : (rest.length + 1 + 1 + 1 + 1) % 4 = rest.length % 4 := by omega
      have hdiv4 : (rest.length + 1 + 1 + 1 + 1) / 4 = rest.length / 4 + 1 := by omega
      simp only [List.length_cons, hmod, hdiv4]
      rw [List.range_succ_eq_map, List.foldl_cons, List.foldl_map]
      have hstep0 : MurmurHash3_32_block_step (x :: y :: z :: w :: rest) a 0 =
          specBlockMix a x y z w := rfl
      have hsucc : (fun (h i : Nat) =>
          MurmurHash3_32_block_step (x :: y :: z :: w :: rest) h (Nat.succ i)) =
          fun h i => MurmurHash3_32_block_step rest h i := by
        funext h i
        exact murmur_block_step_cons4 x y z w rest h i
      rw [hstep0, hsucc]
      have htail : ∀ h1, MurmurHash3_32_tail (x :: y :: z :: w :: rest)
          ((rest.length / 4 + 1) * 4) (rest.length % 4) h1 =
          MurmurHash3_32_tail rest (rest.length / 4 * 4) (rest.length % 4) h1 := by
        intro h1
        rw [show (rest.length / 4 + 1) * 4 = rest.length / 4 * 4 + 4 by ring,
          murmur_tail_cons4]
      rw [htail]
      have hrhs : specMurmurGo (k + 1) a (x :: y :: z :: w :: rest) =
          specMurmurGo k (specBlockMix a x y z w) rest := rfl
      rw [hrhs]
      exact ih rest hdiv (specBlockMix a x y z w)

/-- C5: For every seed and every byte span, the generic `compute_bytes`
equals the reference MurmurHash3 definition written from the
specification: little-endian 4-byte blocks mixed with
`c1`/rotate-15/`c2`/XOR/rotate-13/`5*h1+c3`, the 0–3 tail bytes folded
zero-extended into one scratch word mixed once, then `h1 ^= length` and
the four-step avalanche mix. -/
theorem generic_hash_matches_reference_definition (seed : Nat) (bs : List Nat) :
    MurmurHash3_32_compute_bytes seed bs = specMurmurReference seed bs := by
  simp only [MurmurHash3_32_compute_bytes, specMurmurReference]
  rw [murmur_loop_tail_eq_specLoop (bs.length / 4) bs rfl (seed % 2 ^ 32)]
  rfl

/-- C3 counterexample: `IdentityHash<float>` applied to `1.5f` (bit
pattern `0x3FC00000`) returns the converted value `1`, not the bit
pattern `0x3FC00000` reinterpreted as a 32-bit value, so the claim fails
for floating-point keys. -/
theorem identity_hash_float_value_not_bit_pattern :
    IdentityHash_float32 0x3FC00000 = some 1 ∧
      IdentityHash_float32 0x3FC00000 ≠ some 0x3FC00000 := by
  constructor
  · decide
  · decide

/-- C3 amended: for boolean and fixed-width integer keys `IdentityHash`
returns `static_cast<uint32_t>(key)` — the value modulo `2 ^ 32`, which
preserves a 32-bit key's bit pattern exactly and sign-extends the
two's-complement pattern of narrower signed keys — with no mixing and no
avalanche; for floating-point keys it returns the numeric value truncated
toward zero, not the key's bit pattern (`1.5f` hashes to `1`). -/
theorem identity_hash_casts_value :
    (∀ b : Bool, IdentityHash_bool b = if b then 1 else 0) ∧
    (∀ p : Nat, p < 2 ^ 32 → IdentityHash_integral p = p) ∧
    (∀ b : Nat, b < 256 →
      IdentityHash_integral (int8OfByte b) = if b < 128 then b else b + 0xFFFFFF00) ∧
    IdentityHash_float32 0x3FC00000 = some 1 := by
  refine ⟨by decide, fun p hp => ?_, fun b hb => ?_, by decide⟩
  · simp only [IdentityHash_integral, toUInt32cast, show ((2 : Int) ^ 32) = 4294967296 by norm_num]
    omega
  · simp only [IdentityHash_integral, toUInt32cast, int8OfByte,
      show ((2 : Int) ^ 32) = 4294967296 by norm_num]
    have hb' : b % 256 = b := Nat.mod_eq_of_lt hb
    rw [hb']
    split_ifs <;> omega

/-- Witness for C3 (amended) at concrete integral keys: the 32-bit value
`7` is returned unchanged and the `int8_t` bit pattern `0xFF` (value
`-1`) sign-extends to `0xFFFFFFFF`. -/
theorem identity_hash_casts_value_witness :
    IdentityHash_integral 7 = 7 ∧
      IdentityHash_integral (int8OfByte 0xFF) = 0xFFFFFFFF :=
  ⟨identity_hash_casts_value.2.1 7 (by decide),
    by
      have h := identity_hash_casts_value.2.2.1 0xFF (by decide)
      simpa using h⟩

theorem bytesLE_length (w n : Nat) : (bytesLE w n).length = w := by
  simp [bytesLE]

theorem bytesLE_getD (w n i : Nat) (h : i < w) :
    (bytesLE w n).getD i 0 = n / 256 ^ i % 256 := by
  rw [List.getD_eq_getElem _ 0 (by simpa [bytesLE_length] using h)]
  simp [bytesLE]

theorem headD_eq_getD (l : List Nat) (d : Nat) : l.headD d = l.getD 0 d := by
  cases l <;> rfl

theorem takeWhile_sat {α : Type} (p : α → Bool) (d : α) :
    ∀ (l : List α) (i : Nat), i < (l.takeWhile p).length → p (l.getD i d) = true := by
  intro l
  induction l with
  | nil => intro i hi; simp at hi
  | cons a l ih =>
    intro i hi
    rw [List.takeWhile_cons] at hi
    by_cases hp : p a
    · simp only [hp, if_true, List.length_cons] at hi
      cases i with
      | zero => simpa using hp
      | succ j => simpa using ih j (by omega)
    · simp [hp] at hi

theorem takeWhile_stop {α : Type} (p : α → Bool) (d : α) :
    ∀ l : List α, (l.takeWhile p).length < l.length →
      p (l.getD (l.takeWhile p).length d) = false := by
  intro l
  induction l with
  | nil => intro h; simp at h
  | cons a l ih =>
    intro h
    rw [List.takeWhile_cons] at h ⊢
    by_cases hp : p a
    · simp only [hp, if_true, List.length_cons] at h ⊢
      simpa using ih (by omega)
    · simp [hp]

theorem length_takeWhile_le' {α : Type} (p : α → Bool) (l : List α) :
    (l.takeWhile p).length ≤ l.length := by
  have h := congrArg List.length (List.takeWhile_append_dropWhile p l)
  simp only [List.length_append] at h
  omega

theorem dropWhile_length_eq {α : Type} (p : α → Bool) (l : List α) :
    (l.dropWhile p).length = l.length - (l.takeWhile p).length := by
  have h := congrArg List.length (List.takeWhile_append_dropWhile p l)
  simp only [List.length_append] at h
  omega

theorem getD_reverse (l : List Nat) (i d : Nat) (h : i < l.length) :
    l.reverse.getD i d = l.getD (l.length - 1 - i) d := by
  rw [List.getD_eq_getElem?_getD, List.getD_eq_getElem?_getD,
    List.getElem?_reverse (by simpa using h)]

theorem bytes_all_zero :
    ∀ (k n : Nat), n < 256 ^ k → (∀ j, j < k → n / 256 ^ j % 256 = 0) → n = 0 := by
  intro k
  induction k with
  | zero => intro n hn _; simpa using hn
  | succ k ih =>
    intro n hn hb
    have h0 : n % 256 = 0 := by simpa using hb 0 (by omega)
    have hdivlt : n / 256 < 256 ^ k := by
      rw [Nat.div_lt_iff_lt_mul (by norm_num)]
      calc n < 256 ^ (k + 1) := hn
        _ = 256 ^ k * 256 := by ring
    have hdivb : ∀ j, j < k → n / 256 / 256 ^ j % 256 = 0 := by
      intro j hj
      have := hb (j + 1) (by omega)
      rwa [Nat.div_div_eq_div_mul, show 256 * 256 ^ j = 256 ^ (j + 1) by ring]
    have := ih (n / 256) hdivlt hdivb
    omega

theorem bytes_all_ff :
    ∀ (k n : Nat), n < 256 ^ k → (∀ j, j < k → n / 256 ^ j % 256 = 255) →
      n = 256 ^ k - 1 := by
  intro k
  induction k with
  | zero => intro n hn _; simpa using hn
  | succ k ih =>
    intro n hn hb
    have h0 : n % 256 = 255 := by simpa using hb 0 (by omega)
    have hdivlt : n / 256 < 256 ^ k := by
      rw [Nat.div_lt_iff_lt_mul (by norm_num)]
      calc n < 256 ^ (k + 1) := hn
        _ = 256 ^ k * 256 := by ring
    have hdivb : ∀ j, j < k → n / 256 / 256 ^ j % 256 = 255 := by
      intro j hj
      have := hb (j + 1) (by omega)
      rwa [Nat.div_div_eq_div_mul, show 256 * 256 ^ j = 256 ^ (j + 1) by ring]
    have hrec := ih (n / 256) hdivlt hdivb
    have hpos : 1 ≤ 256 ^ k := Nat.one_le_pow _ _ (by norm_num)
    have hmod := Nat.div_add_mod n 256
    have : n = 256 * (256 ^ k - 1) + 255 := by omega
    have hgoal : n = 256 ^ (k + 1) - 1 := by
      rw [this, pow_succ]
      have : 256 * (256 ^ k - 1) = 256 * 256 ^ k - 256 := by omega
      omega
    exact hgoal

theorem mod_pow_succ_byte (u k : Nat) :
    u % 256 ^ (k + 1) = u / 256 ^ k % 256 * 256 ^ k + u % 256 ^ k := by
  rw [pow_succ, Nat.mod_mul]
  ring

theorem bytesLE_take (w u L : Nat) (h : L ≤ w) :
    (bytesLE w u).take L = bytesLE L u := by
  simp only [bytesLE, ← List.map_take, List.take_range]
  rw [min_eq_left h]

theorem beBytes_rev_aux :
    ∀ (L u a : Nat),
      ((bytesLE L u).reverse).foldl (fun x b => x * 256 + b % 256) a =
        a * 256 ^ L + u % 256 ^ L := by
  intro L
  induction L with
  | zero => intro u a; simp [bytesLE, Nat.mod_one]
  | succ L ih =>
    intro u a
    have hsplit : bytesLE (L + 1) u = bytesLE L u ++ [u / 256 ^ L % 256] := by
      simp [bytesLE, List.range_succ]
    rw [hsplit, List.reverse_append]
    simp only [List.reverse_singleton, List.singleton_append, List.foldl_cons]
    rw [ih u (a * 256 + u / 256 ^ L % 256 % 256)]
    rw [Nat.mod_mod_of_dvd _ (by norm_num)]
    rw [mod_pow_succ_byte u L]
    ring

theorem beBytes_rev (L u : Nat) :
    beBytesToNat ((bytesLE L u).reverse) = u % 256 ^ L := by
  rw [beBytesToNat, beBytes_rev_aux L u 0]
  ring

theorem beBytes_take_rev (w u L : Nat) (h : L ≤ w) :
    beBytesToNat (((bytesLE w u).take L).reverse) = u % 256 ^ L := by
  rw [bytesLE_take w u L h, beBytes_rev]

theorem getD_take (l : List Nat) (n i d : Nat) (h : i < n) :
    (l.take n).getD i d = l.getD i d := by
  rw [List.getD_eq_getElem?_getD, List.getD_eq_getElem?_getD, List.getElem?_take]
  simp [h]

theorem head_take_reverse (l : List Nat) (L : Nat) (h1 : 1 ≤ L) (h2 : L ≤ l.length) :
    ((l.take L).reverse).headD 0 = l.getD (L - 1) 0 := by
  have hlen : (l.take L).length = L := by
    rw [List.length_take]; omega
  rw [headD_eq_getD, getD_reverse _ _ _ (by simp [hlen]; omega), hlen, Nat.sub_zero,
    getD_take _ _ _ _ (by omega)]

theorem foldl_be_lower :
    ∀ (bs : List Nat) (a : Nat),
      a * 256 ^ bs.length ≤ bs.foldl (fun x b => x * 256 + b % 256) a := by
  intro bs
  induction bs with
  | nil => intro a; simp
  | cons b l ih =>
    intro a
    simp only [List.foldl_cons, List.length_cons]
    calc a * 256 ^ (l.length + 1) = (a * 256) * 256 ^ l.length := by ring
      _ ≤ (a * 256 + b % 256) * 256 ^ l.length := by
          exact Nat.mul_le_mul_right _ (by omega)
      _ ≤ l.foldl (fun x b => x * 256 + b % 256) (a * 256 + b % 256) := ih _

theorem foldl_be_upper :
    ∀ (bs : List Nat) (a : Nat),
      bs.foldl (fun x b => x * 256 + b % 256) a < (a + 1) * 256 ^ bs.length := by
  intro bs
  induction bs with
  | nil => intro a; simp
  | cons b l ih =>
    intro a
    simp only [List.foldl_cons, List.length_cons]
    calc l.foldl (fun x b => x * 256 + b % 256) (a * 256 + b % 256)
        < (a * 256 + b % 256 + 1) * 256 ^ l.length := ih _
      _ ≤ ((a + 1) * 256) * 256 ^ l.length := by
          have : b % 256 < 256 := Nat.mod_lt _ (by norm_num)
          exact Nat.mul_le_mul_right _ (by omega)
      _ = (a + 1) * 256 ^ (l.length + 1) := by ring

theorem decodeBE_range (bs : List Nat) (h : 1 ≤ bs.length) :
    -(128 * (256 : Int) ^ (bs.length - 1)) ≤ decodeBE bs ∧
      decodeBE bs < 128 * (256 : Int) ^ (bs.length - 1) := by
  rcases bs with _ | ⟨b, rest⟩
  · simp at h
  · have hblt : b % 256 < 256 := Nat.mod_lt _ (by norm_num)
    have hhead : (b :: rest).headD 0 = b := rfl
    have hlen : (b :: rest).length = rest.length + 1 := rfl
    have hbe : beBytesToNat (b :: rest) =
        rest.foldl (fun x b => x * 256 + b % 256) (b % 256) := by
      simp [beBytesToNat]
    have hup := foldl_be_upper rest (b % 256)
    have hlow := foldl_be_lower rest (b % 256)
    have hpow : (2 : Int) ^ (8 * (rest.length + 1)) = 256 * (256 : Int) ^ rest.length := by
      rw [show 8 * (rest.length + 1) = 8 * rest.length + 8 by ring]
      rw [pow_add, pow_mul]
      norm_num [mul_comm]
    rw [decodeBE, hhead, hlen]
    simp only [Nat.add_sub_cancel]
    by_cases hb : 128 ≤ b % 256
    · rw [if_pos hb, hpow, hbe]
      constructor
      · have : (128 : Nat) * 256 ^ rest.length ≤
            rest.foldl (fun x b => x * 256 + b % 256) (b % 256) := by
          calc (128 : Nat) * 256 ^ rest.length ≤ (b % 256) * 256 ^ rest.length :=
                Nat.mul_le_mul_right _ hb
            _ ≤ _ := hlow
        have hcast : (128 : Int) * 256 ^ rest.length ≤
            (rest.foldl (fun x b => x * 256 + b % 256) (b % 256) : Nat) := by
          exact_mod_cast this
        linarith
      · have : rest.foldl (fun x b => x * 256 + b % 256) (b % 256) <
            256 * 256 ^ rest.length := by
          calc rest.foldl (fun x b => x * 256 + b % 256) (b % 256)
              < (b % 256 + 1) * 256 ^ rest.length := hup
            _ ≤ 256 * 256 ^ rest.length := Nat.mul_le_mul_right _ (by omega)
        have hcast : ((rest.foldl (fun x b => x * 256 + b % 256) (b % 256) : Nat) : Int) <
            256 * 256 ^ rest.length := by exact_mod_cast this
        have hpos : (0 : Int) < 128 * 256 ^ rest.length := by positivity
        linarith
    · rw [if_neg hb, hbe]
      constructor
      · have hpos : (0 : Int) ≤ (rest.foldl (fun x b => x * 256 + b % 256) (b % 256) : Nat) := by
          positivity
        have hpos2 : (0 : Int) ≤ 128 * 256 ^ rest.length := by positivity
        linarith
      · have : rest.foldl (fun x b => x * 256 + b % 256) (b % 256) <
            128 * 256 ^ rest.length := by
          calc rest.foldl (fun x b => x * 256 + b % 256) (b % 256)
              < (b % 256 + 1) * 256 ^ rest.length := hup
            _ ≤ 128 * 256 ^ rest.length := Nat.mul_le_mul_right _ (by omega)
        exact_mod_cast this


theorem land_128_iff : ∀ b : Nat, b < 256 → ((b &&& 128 ≠ 0) ↔ 128 ≤ b) := by decide

theorem byte_scan_facts (u fill t : Nat)
    (ht : t = (((bytesLE 16 u).reverse).takeWhile (fun b => b == fill)).length) :
    t ≤ 16 ∧ (∀ i, 16 - t ≤ i → i < 16 → u / 256 ^ i % 256 = fill) ∧
      (0 < 16 - t → u / 256 ^ (16 - t - 1) % 256 ≠ fill) := by
  refine ⟨?_, ?_, ?_⟩
  · have := length_takeWhile_le' (fun b => b == fill) ((bytesLE 16 u).reverse)
    rw [← ht] at this
    simpa [bytesLE_length] using this
  · intro i h1 h2
    have ht16 : t ≤ 16 := by
      have := length_takeWhile_le' (fun b => b == fill) ((bytesLE 16 u).reverse)
      rw [← ht] at this
      simpa [bytesLE_length] using this
    have hj : 15 - i < t := by omega
    have hsat := takeWhile_sat (fun b => b == fill) 0 ((bytesLE 16 u).reverse)
      (15 - i) (by rw [← ht]; exact hj)
    rw [getD_reverse _ _ _ (by simp [bytesLE_length]; omega)] at hsat
    rw [bytesLE_length] at hsat
    rw [show 16 - 1 - (15 - i) = i by omega] at hsat
    rw [bytesLE_getD _ _ _ h2] at hsat
    simpa using hsat
  · intro hpos
    have hstop := takeWhile_stop (fun b => b == fill) 0 ((bytesLE 16 u).reverse)
      (by rw [← ht]; simp [bytesLE_length]; omega)
    rw [← ht] at hstop
    rw [getD_reverse _ _ _ (by simp [bytesLE_length]; omega)] at hstop
    rw [bytesLE_length] at hstop
    rw [show 16 - 1 - t = 16 - t - 1 by omega] at hstop
    rw [bytesLE_getD _ _ _ (by omega)] at hstop
    simpa using hstop

theorem high_zero_bound (u m : Nat) (hm : m ≤ 16) (hu : u < 2 ^ 128)
    (hb : ∀ i, m ≤ i → i < 16 → u / 256 ^ i % 256 = 0) : u < 256 ^ m := by
  have hpow16 : (256 : Nat) ^ 16 = 2 ^ 128 := by norm_num
  have hq : u / 256 ^ m < 256 ^ (16 - m) := by
    rw [Nat.div_lt_iff_lt_mul (Nat.pos_pow_of_pos _ (by norm_num))]
    calc u < 2 ^ 128 := hu
      _ = 256 ^ (16 - m) * 256 ^ m := by
          rw [← pow_add, show 16 - m + m = 16 by omega, hpow16]
  have hz : u / 256 ^ m = 0 := by
    apply bytes_all_zero (16 - m) _ hq
    intro j hj
    rw [Nat.div_div_eq_div_mul, ← pow_add]
    exact hb (m + j) (by omega) (by omega)
  have hp : 0 < 256 ^ m := Nat.pos_pow_of_pos _ (by norm_num)
  exact (Nat.div_eq_zero_iff hp).mp hz

theorem high_ff_div (u m : Nat) (hm : m ≤ 16) (hu : u < 2 ^ 128)
    (hb : ∀ i, m ≤ i → i < 16 → u / 256 ^ i % 256 = 255) :
    u / 256 ^ m = 256 ^ (16 - m) - 1 := by
  have hpow16 : (256 : Nat) ^ 16 = 2 ^ 128 := by norm_num
  have hq : u / 256 ^ m < 256 ^ (16 - m) := by
    rw [Nat.div_lt_iff_lt_mul (Nat.pos_pow_of_pos _ (by norm_num))]
    calc u < 2 ^ 128 := hu
      _ = 256 ^ (16 - m) * 256 ^ m := by
          rw [← pow_add, show 16 - m + m = 16 by omega, hpow16]
  apply bytes_all_ff (16 - m) _ hq
  intro j hj
  rw [Nat.div_div_eq_div_mul, ← pow_add]
  exact hb (m + j) (by omega) (by omega)

theorem sparkDec_take_form (v : Int) (u L0 : Nat)
    (hIntNat : (v % 2 ^ 128).toNat = u)
    (hL0 : L0 = max 1 ((((bytesLE 16 u).reverse).dropWhile
        (fun b => b == (if decide (v < 0) then (255 : Nat) else 0))).length)) :
    sparkDecimal128Bytes v =
      ((bytesLE 16 u).take
        (if L0 < 16 ∧ Bool.xor (decide (v < 0))
            (decide ((bytesLE 16 u).getD (L0 - 1) 0 &&& 128 ≠ 0))
          then L0 + 1 else L0)).reverse := by
  subst hL0
  simp only [sparkDecimal128Bytes, hIntNat]

theorem stageA (v : Int) (u : Nat) (hv : 0 ≤ v) (hhi : v < 2 ^ 127)
    (hu : (u : Int) = v % 2 ^ 128) :
    ∃ L, sparkDecimal128Bytes v = ((bytesLE 16 u).take L).reverse ∧
      1 ≤ L ∧ L ≤ 16 ∧ (u : Int) = v ∧ u < 256 ^ L ∧
      u / 256 ^ (L - 1) % 256 < 128 ∧ (L = 1 ∨ 128 * 256 ^ (L - 2) ≤ u) := by
  have huv : (u : Int) = v := by omega
  have hu127 : u < 2 ^ 127 := by omega
  have hu128 : u < 2 ^ 128 := by omega
  have hdec : decide (v < 0) = false := by simp; omega
  have hIntNat : (v % 2 ^ 128).toNat = u := by omega
  set t := (((bytesLE 16 u).reverse).takeWhile (fun b => b == (0 : Nat))).length with ht
  obtain ⟨ht16, hhib, hlob⟩ := byte_scan_facts u 0 t ht
  have hm_up : u < 256 ^ (16 - t) := high_zero_bound u (16 - t) (by omega) hu128 hhib
  have hL0eq : max 1 (16 - t) = max 1 ((((bytesLE 16 u).reverse).dropWhile
      (fun b => b == (if decide (v < 0) then (255 : Nat) else 0))).length) := by
    simp only [hdec, Bool.false_eq_true, if_false]
    rw [dropWhile_length_eq, List.length_reverse, bytesLE_length, ← ht]
  have hform := sparkDec_take_form v u (max 1 (16 - t)) hIntNat hL0eq
  rcases Nat.eq_zero_or_pos (16 - t) with hm0 | hmpos
  · have hu0 : u = 0 := by rw [hm0] at hm_up; simpa using hm_up
    have hv0 : v = 0 := by omega
    subst hv0
    subst hu0
    exact ⟨1, by decide, by norm_num, by norm_num, by norm_num, by norm_num, by norm_num,
      Or.inl rfl⟩
  · have hmax : max 1 (16 - t) = 16 - t := by omega
    rw [hmax] at hform
    have hgetD : (bytesLE 16 u).getD (16 - t - 1) 0 = u / 256 ^ (16 - t - 1) % 256 :=
      bytesLE_getD _ _ _ (by omega)
    have hbyte256 : u / 256 ^ (16 - t - 1) % 256 < 256 := Nat.mod_lt _ (by norm_num)
    rcases lt_or_ge (u / 256 ^ (16 - t - 1) % 256) 128 with hmsb | hmsb
    · have hcond : ¬(16 - t < 16 ∧ Bool.xor (decide (v < 0))
          (decide ((bytesLE 16 u).getD (16 - t - 1) 0 &&& 128 ≠ 0)) = true) := by
        rintro ⟨-, hx⟩
        rw [hdec, Bool.false_xor, decide_eq_true_eq, hgetD] at hx
        rw [land_128_iff _ hbyte256] at hx
        omega
      rw [if_neg hcond] at hform
      refine ⟨16 - t, hform, by omega, by omega, huv, hm_up, hmsb, ?_⟩
      by_cases h1 : 16 - t = 1
      · exact Or.inl h1
      · right
        have hnz := hlob hmpos
        have hdivnz : u / 256 ^ (16 - t - 1) ≠ 0 := by
          intro h0
          apply hnz
          rw [h0]
        have hge : 256 ^ (16 - t - 1) ≤ u := by
          have h1le : 1 ≤ u / 256 ^ (16 - t - 1) := Nat.one_le_iff_ne_zero.mpr hdivnz
          calc 256 ^ (16 - t - 1) = 1 * 256 ^ (16 - t - 1) := by ring
            _ ≤ u / 256 ^ (16 - t - 1) * 256 ^ (16 - t - 1) :=
                Nat.mul_le_mul_right _ h1le
            _ ≤ u := Nat.div_mul_le_self _ _
        calc 128 * 256 ^ (16 - t - 2)
            ≤ 256 * 256 ^ (16 - t - 2) := Nat.mul_le_mul_right _ (by norm_num)
          _ = 256 ^ (16 - t - 1) := by
              rw [mul_comm, ← pow_succ]
              congr 1
              omega
          _ ≤ u := hge
    · have hm16 : 16 - t < 16 := by
        by_contra hc
        have h16 : 16 - t = 16 := by omega
        have hlt : u / 256 ^ 15 < 128 := by
          rw [Nat.div_lt_iff_lt_mul (Nat.pos_pow_of_pos _ (by norm_num))]
          calc u < 2 ^ 127 := hu127
            _ = 128 * 256 ^ 15 := by norm_num
        rw [h16] at hmsb
        have hmle : u / 256 ^ 15 % 256 ≤ u / 256 ^ 15 := Nat.mod_le _ _
        norm_num at hmsb
        omega
      have hcond : (16 - t < 16 ∧ Bool.xor (decide (v < 0))
          (decide ((bytesLE 16 u).getD (16 - t - 1) 0 &&& 128 ≠ 0)) = true) := by
        refine ⟨hm16, ?_⟩
        rw [hdec, Bool.false_xor, decide_eq_true_eq, hgetD]
        exact (land_128_iff _ hbyte256).mpr hmsb
      rw [if_pos hcond] at hform
      refine ⟨16 - t + 1, hform, by omega, by omega, huv, ?_, ?_, ?_⟩
      · calc u < 256 ^ (16 - t) := hm_up
          _ ≤ 256 ^ (16 - t + 1) := Nat.pow_le_pow_right (by norm_num) (by omega)
      · have hz : u / 256 ^ (16 - t) = 0 := Nat.div_eq_of_lt hm_up
        rw [show 16 - t + 1 - 1 = 16 - t by omega, hz]
        norm_num
      · right
        rw [show 16 - t + 1 - 2 = 16 - t - 1 by omega]
        have hmodle : u / 256 ^ (16 - t - 1) % 256 ≤ u / 256 ^ (16 - t - 1) :=
          Nat.mod_le _ _
        have h128 : 128 ≤ u / 256 ^ (16 - t - 1) := le_trans hmsb hmodle
        calc 128 * 256 ^ (16 - t - 1)
            ≤ u / 256 ^ (16 - t - 1) * 256 ^ (16 - t - 1) :=
              Nat.mul_le_mul_right _ h128
          _ ≤ u := Nat.div_mul_le_self _ _

theorem pow_pred_div (k : Nat) (hk : 1 ≤ k) :
    (256 ^ k - 1) / 256 = 256 ^ (k - 1) - 1 := by
  obtain ⟨j, rfl⟩ : ∃ j, k = j + 1 := ⟨k - 1, by omega⟩
  have h1 : 1 ≤ 256 ^ j := Nat.one_le_pow _ _ (by norm_num)
  have hsplit : 256 ^ (j + 1) - 1 = 256 * (256 ^ j - 1) + 255 := by
    rw [pow_succ]
    omega
  rw [hsplit, Nat.mul_add_div (by norm_num)]
  simp

theorem pow_sub_one_mod (k : Nat) (hk : 1 ≤ k) : (256 ^ k - 1) % 256 = 255 := by
  obtain ⟨j, rfl⟩ : ∃ j, k = j + 1 := ⟨k - 1, by omega⟩
  have h1 : 1 ≤ 256 ^ j := Nat.one_le_pow _ _ (by norm_num)
  have hsplit : 256 ^ (j + 1) - 1 = 256 * (256 ^ j - 1) + 255 := by
    rw [pow_succ]
    omega
  rw [hsplit, Nat.mul_add_mod]

theorem stageB (v : Int) (u : Nat) (hv : v < 0) (hlo : -(2 : Int) ^ 127 ≤ v)
    (hu : (u : Int) = v % 2 ^ 128) :
    ∃ L, sparkDecimal128Bytes v = ((bytesLE 16 u).take L).reverse ∧
      1 ≤ L ∧ L ≤ 16 ∧ (u : Int) = v + 2 ^ 128 ∧
      u / 256 ^ L = 256 ^ (16 - L) - 1 ∧
      128 ≤ u / 256 ^ (L - 1) % 256 ∧
      (L = 1 ∨ u % 256 ^ L < 256 ^ L - 128 * 256 ^ (L - 2)) := by
  have huv : (u : Int) = v + 2 ^ 128 := by omega
  have hu_ge : 2 ^ 127 ≤ u := by omega
  have hu128 : u < 2 ^ 128 := by omega
  have hdec : decide (v < 0) = true := by simpa using hv
  have hIntNat : (v % 2 ^ 128).toNat = u := by omega
  set t := (((bytesLE 16 u).reverse).takeWhile (fun b => b == (255 : Nat))).length with ht
  obtain ⟨ht16, hhib, hlob⟩ := byte_scan_facts u 255 t ht
  have hm_div : u / 256 ^ (16 - t) = 256 ^ (16 - (16 - t)) - 1 :=
    high_ff_div u (16 - t) (by omega) hu128 hhib
  have hL0eq : max 1 (16 - t) = max 1 ((((bytesLE 16 u).reverse).dropWhile
      (fun b => b == (if decide (v < 0) then (255 : Nat) else 0))).length) := by
    simp only [hdec, if_true]
    rw [dropWhile_length_eq, List.length_reverse, bytesLE_length, ← ht]
  have hform := sparkDec_take_form v u (max 1 (16 - t)) hIntNat hL0eq
  rcases Nat.eq_zero_or_pos (16 - t) with hm0 | hmpos
  · have hueq : u = 2 ^ 128 - 1 := by
      have h16 : (256 : Nat) ^ 16 = 2 ^ 128 := by norm_num
      have := hm_div
      rw [hm0] at this
      simp at this
      omega
    have hv1 : v = -1 := by omega
    subst hv1
    subst hueq
    refine ⟨1, by decide, by norm_num, by norm_num, by norm_num, by decide, by decide,
      Or.inl rfl⟩
  · have hmax : max 1 (16 - t) = 16 - t := by omega
    rw [hmax] at hform
    have hgetD : (bytesLE 16 u).getD (16 - t - 1) 0 = u / 256 ^ (16 - t - 1) % 256 :=
      bytesLE_getD _ _ _ (by omega)
    have hbyte256 : u / 256 ^ (16 - t - 1) % 256 < 256 := Nat.mod_lt _ (by norm_num)
    have hmsb_le : u / 256 ^ (16 - t - 1) % 256 ≤ 254 := by
      have := hlob hmpos
      omega
    rcases lt_or_ge (u / 256 ^ (16 - t - 1) % 256) 128 with hmsb | hmsb
    · -- sign bit lost by trimming: one extra 0xff byte is retained
      have hm16 : 16 - t < 16 := by
        by_contra hc
        have h16 : 16 - t = 16 := by omega
        have hdivlt : u / 256 ^ 15 < 256 := by
          rw [Nat.div_lt_iff_lt_mul (Nat.pos_pow_of_pos _ (by norm_num))]
          calc u < 2 ^ 128 := hu128
            _ = 256 * 256 ^ 15 := by norm_num
        have hdivge : 128 ≤ u / 256 ^ 15 := by
          rw [Nat.le_div_iff_mul_le (Nat.pos_pow_of_pos _ (by norm_num))]
          calc (128 : Nat) * 256 ^ 15 = 2 ^ 127 := by norm_num
            _ ≤ u := hu_ge
        rw [h16] at hmsb
        rw [show (16 : Nat) - 1 = 15 by omega] at hmsb
        rw [Nat.mod_eq_of_lt hdivlt] at hmsb
        omega
      have hcond : (16 - t < 16 ∧ Bool.xor (decide (v < 0))
          (decide ((bytesLE 16 u).getD (16 - t - 1) 0 &&& 128 ≠ 0)) = true) := by
        refine ⟨hm16, ?_⟩
        rw [hdec, Bool.true_xor, hgetD, Bool.not_eq_true', decide_eq_false_iff_not]
        rw [land_128_iff _ hbyte256]
        omega
      rw [if_pos hcond] at hform
      have ht1 : 1 ≤ t := by omega
      have hdiv_succ : u / 256 ^ (16 - t + 1) = 256 ^ (16 - (16 - t + 1)) - 1 := by
        have hstep : u / 256 ^ (16 - t + 1) = u / 256 ^ (16 - t) / 256 := by
          rw [Nat.div_div_eq_div_mul, ← pow_succ]
        rw [hstep, hm_div, pow_pred_div _ (by omega),
          show 16 - (16 - t) - 1 = 16 - (16 - t + 1) by omega]
      have hhead : u / 256 ^ (16 - t) % 256 = 255 := by
        rw [hm_div, pow_sub_one_mod _ (by omega)]
      refine ⟨16 - t + 1, hform, by omega, by omega, huv, hdiv_succ, ?_, ?_⟩
      · rw [show 16 - t + 1 - 1 = 16 - t by omega, hhead]
        norm_num
      · right
        rw [show 16 - t + 1 - 2 = 16 - t - 1 by omega]
        have hsplit1 := mod_pow_succ_byte u (16 - t)
        have hsplit2 := mod_pow_succ_byte u (16 - t - 1)
        rw [show 16 - t - 1 + 1 = 16 - t by omega] at hsplit2
        have hA : (256 : Nat) ^ (16 - t) = 256 * 256 ^ (16 - t - 1) := by
          rw [mul_comm, ← pow_succ]
          congr 1
          omega
        have hB : (256 : Nat) ^ (16 - t + 1) = 256 * 256 ^ (16 - t) := by
          rw [mul_comm, ← pow_succ]
        have hmodA : u % 256 ^ (16 - t - 1) < 256 ^ (16 - t - 1) :=
          Nat.mod_lt _ (Nat.pos_pow_of_pos _ (by norm_num))
        have hub2 : u % 256 ^ (16 - t) ≤
            127 * 256 ^ (16 - t - 1) + u % 256 ^ (16 - t - 1) := by
          rw [hsplit2]
          have : u / 256 ^ (16 - t - 1) % 256 * 256 ^ (16 - t - 1) ≤
              127 * 256 ^ (16 - t - 1) :=
            Nat.mul_le_mul_right _ (by omega)
          omega
        rw [hsplit1, hhead]
        omega
    · -- top retained byte already carries the sign bit: no extra byte
      have hcond : ¬(16 - t < 16 ∧ Bool.xor (decide (v < 0))
          (decide ((bytesLE 16 u).getD (16 - t - 1) 0 &&& 128 ≠ 0)) = true) := by
        rintro ⟨-, hx⟩
        rw [hdec, Bool.true_xor, hgetD, Bool.not_eq_true', decide_eq_false_iff_not] at hx
        rw [land_128_iff _ hbyte256] at hx
        omega
      rw [if_neg hcond] at hform
      refine ⟨16 - t, hform, by omega, by omega, huv, hm_div, hmsb, ?_⟩
      by_cases h1 : 16 - t = 1
      · exact Or.inl h1
      · right
        have hsplit2 := mod_pow_succ_byte u (16 - t - 1)
        rw [show 16 - t - 1 + 1 = 16 - t by omega] at hsplit2
        have hA : (256 : Nat) ^ (16 - t) = 256 * 256 ^ (16 - t - 1) := by
          rw [mul_comm, ← pow_succ]
          congr 1
          omega
        have hA2 : (256 : Nat) ^ (16 - t - 1) = 256 * 256 ^ (16 - t - 2) := by
          rw [mul_comm, ← pow_succ]
          congr 1
          omega
        have hmodA : u % 256 ^ (16 - t - 1) < 256 ^ (16 - t - 1) :=
          Nat.mod_lt _ (Nat.pos_pow_of_pos _ (by norm_num))
        have hub2 : u % 256 ^ (16 - t) ≤
            254 * 256 ^ (16 - t - 1) + u % 256 ^ (16 - t - 1) := by
          rw [hsplit2]
          have : u / 256 ^ (16 - t - 1) % 256 * 256 ^ (16 - t - 1) ≤
              254 * 256 ^ (16 - t - 1) :=
            Nat.mul_le_mul_right _ hmsb_le
          omega
        omega

theorem out_length (u L : Nat) (hL16 : L ≤ 16) :
    (((bytesLE 16 u).take L).reverse).length = L := by
  rw [List.length_reverse, List.length_take, bytesLE_length]
  omega

theorem decodeA (u L : Nat) (hL1 : 1 ≤ L) (hL16 : L ≤ 16) (hup : u < 256 ^ L)
    (hmsb : u / 256 ^ (L - 1) % 256 < 128) :
    decodeBE (((bytesLE 16 u).take L).reverse) = (u : Int) := by
  have hhead : (((bytesLE 16 u).take L).reverse).headD 0 = u / 256 ^ (L - 1) % 256 := by
    rw [head_take_reverse _ _ hL1 (by rw [bytesLE_length]; omega),
      bytesLE_getD _ _ _ (by omega)]
  rw [decodeBE, hhead, Nat.mod_mod_of_dvd _ (by norm_num)]
  rw [if_neg (by omega)]
  rw [beBytes_take_rev _ _ _ hL16, Nat.mod_eq_of_lt hup]

theorem modB (u L : Nat) (v : Int) (hL16 : L ≤ 16)
    (huv : (u : Int) = v + 2 ^ 128) (hdiv : u / 256 ^ L = 256 ^ (16 - L) - 1) :
    ((u % 256 ^ L : Nat) : Int) = v + 256 ^ L := by
  set N := u % 256 ^ L with hN
  have hsplit := Nat.div_add_mod u (256 ^ L)
  rw [hdiv, ← hN] at hsplit
  have hone : 1 ≤ (256 : Nat) ^ (16 - L) := Nat.one_le_pow _ _ (by norm_num)
  have hcast : (256 : Int) ^ L * ((256 : Int) ^ (16 - L) - 1) + (N : Int) = (u : Int) := by
    have h2 : ((256 ^ L * (256 ^ (16 - L) - 1) + N : Nat) : Int) = (u : Int) := by
      exact_mod_cast congrArg (fun n : Nat => (n : Int)) hsplit
    push_cast [hone] at h2
    linarith
  have hpow : (256 : Int) ^ L * 256 ^ (16 - L) = 2 ^ 128 := by
    rw [← pow_add, show L + (16 - L) = 16 by omega]
    norm_num
  rw [mul_sub, hpow] at hcast
  linarith

theorem decodeB (u L : Nat) (v : Int) (hL1 : 1 ≤ L) (hL16 : L ≤ 16)
    (huv : (u : Int) = v + 2 ^ 128) (hdiv : u / 256 ^ L = 256 ^ (16 - L) - 1)
    (hmsb : 128 ≤ u / 256 ^ (L - 1) % 256) :
    decodeBE (((bytesLE 16 u).take L).reverse) = v := by
  have hhead : (((bytesLE 16 u).take L).reverse).headD 0 = u / 256 ^ (L - 1) % 256 := by
    rw [head_take_reverse _ _ hL1 (by rw [bytesLE_length]; omega),
      bytesLE_getD _ _ _ (by omega)]
  rw [decodeBE, hhead, Nat.mod_mod_of_dvd _ (by norm_num)]
  rw [if_pos (by omega)]
  rw [beBytes_take_rev _ _ _ hL16, out_length _ _ hL16]
  rw [modB u L v hL16 huv hdiv]
  have hpow : (2 : Int) ^ (8 * L) = 256 ^ L := by
    rw [pow_mul]
    norm_num
  rw [hpow]
  ring

theorem sparkDec_char (v : Int) (hlo : -(2 : Int) ^ 127 ≤ v) (hhi : v < 2 ^ 127) :
    1 ≤ (sparkDecimal128Bytes v).length ∧ (sparkDecimal128Bytes v).length ≤ 16 ∧
    decodeBE (sparkDecimal128Bytes v) = v ∧
    ((sparkDecimal128Bytes v).length = 1 ∨
      v < -(128 * (256 : Int) ^ ((sparkDecimal128Bytes v).length - 2)) ∨
      128 * (256 : Int) ^ ((sparkDecimal128Bytes v).length - 2) ≤ v) := by
  rcases le_or_lt 0 v with hv | hv
  · obtain ⟨L, henc, hL1, hL16, huv, hup, hmsb, htight⟩ :=
      stageA v ((v % 2 ^ 128).toNat) hv hhi (by omega)
    have hlen : (sparkDecimal128Bytes v).length = L := by
      rw [henc, out_length _ _ hL16]
    refine ⟨by omega, by omega, ?_, ?_⟩
    · rw [henc, decodeA _ _ hL1 hL16 hup hmsb, huv]
    · rcases htight with h1 | hge
      · left; omega
      · right; right
        rw [hlen]
        calc 128 * (256 : Int) ^ (L - 2) = ((128 * 256 ^ (L - 2) : Nat) : Int) := by
              push_cast; ring
          _ ≤ ((v % 2 ^ 128).toNat : Int) := by exact_mod_cast hge
          _ = v := huv
  · obtain ⟨L, henc, hL1, hL16, huv, hdiv, hmsb, htight⟩ :=
      stageB v ((v % 2 ^ 128).toNat) hv hlo (by omega)
    have hlen : (sparkDecimal128Bytes v).length = L := by
      rw [henc, out_length _ _ hL16]
    refine ⟨by omega, by omega, ?_, ?_⟩
    · rw [henc, decodeB _ _ _ hL1 hL16 huv hdiv hmsb]
    · rcases htight with h1 | hlt
      · left; omega
      · by_cases hL1' : L = 1
        · left; omega
        · right; left
          rw [hlen]
          have hL2 : 2 ≤ L := by omega
          have hmod := modB ((v % 2 ^ 128).toNat) L v hL16 huv hdiv
          have hsub : 128 * (256 : Nat) ^ (L - 2) ≤ 256 ^ L := by
            calc 128 * (256 : Nat) ^ (L - 2) ≤ 65536 * 256 ^ (L - 2) :=
                  Nat.mul_le_mul_right _ (by norm_num)
              _ = 256 ^ L := by
                  rw [show (65536 : Nat) = 256 ^ 2 by norm_num, ← pow_add]
                  congr 1
                  omega
          have hcast : (((v % 2 ^ 128).toNat % 256 ^ L : Nat) : Int) <
              (256 : Int) ^ L - 128 * 256 ^ (L - 2) := by
            have h1 : (((v % 2 ^ 128).toNat % 256 ^ L : Nat) : Int) <
                ((256 ^ L - 128 * 256 ^ (L - 2) : Nat) : Int) := by exact_mod_cast hlt
            have h2 : ((256 ^ L - 128 * 256 ^ (L - 2) : Nat) : Int) =
                (256 : Int) ^ L - 128 * 256 ^ (L - 2) := by
              push_cast [hsub]
              ring
            linarith
          linarith [hcast, hmod]

/-- C4: For every 128-bit two's-complement signed integer, the decimal
encoder of the reference-engine-compatible hash produces the minimal
big-endian byte span that sign-extends back to exactly the input value:
re-expanding the span by sign extension reproduces the input, no shorter
span decodes to it, and in particular `0` encodes as `0x00`, `-1` as
`0xff`, `127` as `0x7f`, and `128` as `0x00 0x80` (an extra leading sign
byte is retained whenever the top bit of the most-significant retained
byte disagrees with the value's sign). -/
theorem sparkDecimal128_minimal_sign_extending (v : Int)
    (hlo : -(2 : Int) ^ 127 ≤ v) (hhi : v < 2 ^ 127) :
    decodeBE (sparkDecimal128Bytes v) = v ∧
    (∀ bs : List Nat, 1 ≤ bs.length → decodeBE bs = v →
      (sparkDecimal128Bytes v).length ≤ bs.length) ∧
    sparkDecimal128Bytes 0 = [0x00] ∧ sparkDecimal128Bytes (-1) = [0xff] ∧
    sparkDecimal128Bytes 127 = [0x7f] ∧ sparkDecimal128Bytes 128 = [0x00, 0x80] := by
  obtain ⟨hL1, hL16, hdec, htight⟩ := sparkDec_char v hlo hhi
  refine ⟨hdec, ?_, by decide, by decide, by decide, by decide⟩
  intro bs hbs hbsv
  by_contra hcon
  push_neg at hcon
  have hL2 : 2 ≤ (sparkDecimal128Bytes v).length := by omega
  obtain ⟨hrange1, hrange2⟩ := decodeBE_range bs hbs
  rw [hbsv] at hrange1 hrange2
  have hmono : (256 : Int) ^ (bs.length - 1) ≤
      256 ^ ((sparkDecimal128Bytes v).length - 2) :=
    pow_le_pow_right₀ (by norm_num) (by omega)
  have hmono' : 128 * (256 : Int) ^ (bs.length - 1) ≤
      128 * 256 ^ ((sparkDecimal128Bytes v).length - 2) := by linarith
  rcases htight with h1 | hlt | hge
  · omega
  · linarith
  · linarith

/-- Witness for C4 at the concrete input `300` (plus the `128` boundary
case). -/
theorem sparkDecimal128_minimal_sign_extending_witness :
    decodeBE (sparkDecimal128Bytes 300) = 300 ∧ sparkDecimal128Bytes 128 = [0x00, 0x80] :=
  ⟨(sparkDecimal128_minimal_sign_extending 300 (by decide) (by decide)).1,
    (sparkDecimal128_minimal_sign_extending 300 (by decide) (by decide)).2.2.2.2.2⟩
